import Mathlib

/-!
Verification of the PyMoira client library (protocol codec, connection
receive logic, version negotiation, list-membership expansion and tracing).

The definitions below are a shallow embedding of the Python sources:

* `src/protocol.py` — the `Packet` class (`build` / `parse`), byte helpers
  `_fmt_u32` / `_read_u32`, and the constant `MOIRA_MAX_LIST_DEPTH`;
* `src/client.py` — `MoiraClient.recv`, `MoiraClient.recvPacket`,
  `MoiraClient.setVersion`;
* `src/lists.py` — `MoiraListMember.__init__`, `MoiraList.getAllMembers`
  (client-side expansion), `MoiraListTracer.createInverseMap`,
  `MoiraListTracer.trace` / `recursiveTrace`.

Byte strings are modelled as `List Nat` with every byte below 256.
Numeric constants drawn from the repository's `moira_constants` module
(such as `MR_PERM`, `MR_SUCCESS`, `MR_VERSION_LOW`) are not part of the
sources; functions that compare against them take the constant's value as
an explicit parameter, so all theorems hold for every possible value.
-/

/-! ## Byte-level helpers (`struct.pack`/`struct.unpack` with `!I` and `!i`) -/

/-- `struct.pack("!I", n)` for `n < 2^32`: four big-endian bytes.  The
embedding reduces `n` modulo `2^32` first; every theorem that relies on the
value being preserved carries the corresponding bound as a hypothesis
(Python's `struct.pack` raises on out-of-range input, which no claim
exercises). -/
def u32Bytes (n : Nat) : List Nat :=
  [n % 2 ^ 32 / 2 ^ 24, n % 2 ^ 32 / 2 ^ 16 % 256, n % 2 ^ 32 / 2 ^ 8 % 256, n % 2 ^ 32 % 256]

/-- `_read_u32(s)` from `src/protocol.py`: `struct.unpack("!I", s[0:4])`.
All call sites in the source guard that at least four bytes are present. -/
def readU32 (s : List Nat) : Nat :=
  ((s.getD 0 0 * 256 + s.getD 1 0) * 256 + s.getD 2 0) * 256 + s.getD 3 0

/-- `struct.pack("!i", v)` for `-2^31 ≤ v < 2^31`: two's-complement
big-endian encoding. -/
def i32Bytes (v : Int) : List Nat := u32Bytes (v % 2 ^ 32).toNat

/-- `struct.unpack("!i", s[0:4])`: the signed reading of four big-endian
bytes. -/
def readI32 (s : List Nat) : Int :=
  let u := readU32 s
  if u < 2 ^ 31 then (u : Int) else (u : Int) - 2 ^ 32

@[simp] theorem u32Bytes_length (n : Nat) : (u32Bytes n).length = 4 := rfl

@[simp] theorem i32Bytes_length (v : Int) : (i32Bytes v).length = 4 := rfl

theorem readU32_u32Bytes_append (n : Nat) (r : List Nat) :
    readU32 (u32Bytes n ++ r) = n % 2 ^ 32 := by
  have h : n % 2 ^ 32 < 2 ^ 32 := Nat.mod_lt _ (by norm_num)
  simp only [readU32, u32Bytes, List.cons_append, List.getD_cons_zero, List.getD_cons_succ]
  omega

theorem readI32_i32Bytes_append (v : Int) (r : List Nat)
    (h1 : -(2 ^ 31) ≤ v) (h2 : v < 2 ^ 31) :
    readI32 (i32Bytes v ++ r) = v := by
  unfold readI32 i32Bytes
  rw [readU32_u32Bytes_append]
  have hmod : v % 2 ^ 32 = if 0 ≤ v then v else v + 2 ^ 32 := by
    split <;> omega
  rw [hmod]
  by_cases hv : 0 ≤ v
  · simp only [if_pos hv]
    have hm : v.toNat % 2 ^ 32 = v.toNat := Nat.mod_eq_of_lt (by omega)
    rw [hm]
    have hlt : v.toNat < 2 ^ 31 := by omega
    simp only [hlt, if_true]
    omega
  · simp only [if_neg hv]
    have hm : (v + 2 ^ 32).toNat % 2 ^ 32 = (v + 2 ^ 32).toNat := Nat.mod_eq_of_lt (by omega)
    rw [hm]
    have hnotlt : ¬ (v + 2 ^ 32).toNat < 2 ^ 31 := by omega
    simp only [hnotlt, if_false]
    omega

/-! ## The Moira packet codec (`src/protocol.py`, class `Packet`) -/

/-- `MOIRA_PROTOCOL_VERSION` from `src/protocol.py`. -/
def MOIRA_PROTOCOL_VERSION : Nat := 2

/-- `MOIRA_MAX_LIST_DEPTH` from `src/protocol.py` (line 22). -/
def MOIRA_MAX_LIST_DEPTH : Nat := 3072

/-- The padded length of a field body: `field_len` rounded up to the next
multiple of four, exactly as computed in `Packet.parse` (lines 111-114). -/
def pad4Len (n : Nat) : Nat := if n % 4 = 0 then n else n + (4 - n % 4)

/-- Python's `s.rstrip("\0")`: remove all trailing zero bytes. -/
def rstripZeros (l : List Nat) : List Nat :=
  ((l.reverse).dropWhile (fun b => b = 0)).reverse

/-- One encoded field of `Packet.build`: the item is the field plus a
terminating zero byte; its unpadded length is emitted as a big-endian
`u32`, then the item is zero-padded to a four-byte boundary. -/
def Packet.encodeItem (f : List Nat) : List Nat :=
  u32Bytes (f.length + 1) ++ (f ++ [0] ++ List.replicate ((4 - (f.length + 1) % 4) % 4) 0)

/-- `Packet.build` from `src/protocol.py`: header (total length, protocol
version, opcode, field count) followed by the encoded fields. -/
def Packet.build (opcode : Int) (data : List (List Nat)) : List Nat :=
  let body := (data.map Packet.encodeItem).flatten
  u32Bytes (16 + body.length) ++ u32Bytes MOIRA_PROTOCOL_VERSION ++ i32Bytes opcode ++
    u32Bytes data.length ++ body

/-- How `Packet.parse` can fail: `protocol` is the `ConnectionError` the
method raises itself; `structError` is the `struct.error` escaping from
`struct.unpack` when fewer than 16 bytes are handed to it. -/
inductive ParseErr where
  | protocol
  | structError
  deriving DecidableEq, Repr

/-- The result of a successful `Packet.parse`: the attributes the method
assigns (`raw_len`, `opcode`, `data`). -/
structure ParsedPacket where
  raw_len : Nat
  opcode : Int
  data : List (List Nat)
  deriving DecidableEq, Repr

/-- The field-reading loop of `Packet.parse` (lines 100-119): for each of
`argc` declared fields, require at least four bytes for the length word,
require the unpadded length plus the length word to fit in the remaining
body, then strip the zero-padded value of its trailing zero bytes.  Returns
the fields together with the unconsumed remainder. -/
def Packet.parseFields : List Nat → Nat → Except ParseErr (List (List Nat) × List Nat)
  | body, 0 => .ok ([], body)
  | body, argc + 1 =>
    if body.length < 4 then .error .protocol
    else
      let fl := readU32 body
      if fl + 4 > body.length then .error .protocol
      else
        let rest := body.drop 4
        let al := pad4Len fl
        match Packet.parseFields (rest.drop al) argc with
        | .error e => .error e
        | .ok (fs, r) => .ok (rstripZeros (rest.take al) :: fs, r)

/-- `Packet.parse` from `src/protocol.py`: unpack the 16-byte header, check
that the declared total length is a multiple of four and that the version
is 2, read `argc` fields, and reject any leftover bytes. -/
def Packet.parse (orig : List Nat) : Except ParseErr ParsedPacket :=
  if orig.length < 16 then .error .structError
  else
    let length := readU32 orig
    let version := readU32 (orig.drop 4)
    let status := readI32 (orig.drop 8)
    let argc := readU32 (orig.drop 12)
    let body := orig.drop 16
    if length % 4 ≠ 0 then .error .protocol
    else if version ≠ 2 then .error .protocol
    else
      match Packet.parseFields body argc with
      | .error e => .error e
      | .ok (fs, r) =>
        if r.length > 0 then .error .protocol
        else .ok ⟨length, status, fs⟩

/-- The four ways the field-reading loop of `Packet.parse` can end, used to
state the decode-failure conditions of the specification: the body ran out
before a field's length word (`truncated`), a declared field length reached
past the remaining buffer (`overrun`), bytes were left after all declared
fields (`trailing`), or the body was consumed exactly (`clean`). -/
inductive FieldsOutcome where
  | truncated
  | overrun
  | trailing
  | clean
  deriving DecidableEq, Repr

/-- The walk of `Packet.parseFields` reduced to its outcome. -/
def Packet.fieldsOutcome : List Nat → Nat → FieldsOutcome
  | body, 0 => if body.length > 0 then .trailing else .clean
  | body, argc + 1 =>
    if body.length < 4 then .truncated
    else if readU32 body + 4 > body.length then .overrun
    else Packet.fieldsOutcome ((body.drop 4).drop (pad4Len (readU32 body))) argc

deriving instance DecidableEq for Except

/-! ## Round-trip lemmas for the codec -/

theorem pad4Len_ge (n : Nat) : n ≤ pad4Len n := by
  unfold pad4Len; split <;> omega

theorem pad4Len_mod (n : Nat) : pad4Len n % 4 = 0 := by
  unfold pad4Len; split <;> omega

/-- The zero-padded item of an encoded field, without its length word. -/
def Packet.paddedItem (f : List Nat) : List Nat :=
  f ++ [0] ++ List.replicate ((4 - (f.length + 1) % 4) % 4) 0

theorem encodeItem_eq (f : List Nat) :
    Packet.encodeItem f = u32Bytes (f.length + 1) ++ Packet.paddedItem f := rfl

theorem paddedItem_length (f : List Nat) :
    (Packet.paddedItem f).length = pad4Len (f.length + 1) := by
  simp only [Packet.paddedItem, List.length_append, List.length_replicate,
    List.length_cons, List.length_nil, pad4Len]
  split <;> omega

theorem dropWhile_zeros (k : Nat) (l : List Nat) :
    List.dropWhile (fun b => b = 0) (List.replicate k 0 ++ l) =
      List.dropWhile (fun b => b = 0) l := by
  induction k with
  | zero => rfl
  | succ k ih => simp [List.replicate_succ, List.dropWhile_cons, ih]

theorem rstripZeros_append_replicate (f : List Nat) (k : Nat) :
    rstripZeros (f ++ List.replicate k 0) = rstripZeros f := by
  unfold rstripZeros
  rw [List.reverse_append, List.reverse_replicate, dropWhile_zeros]

theorem rstripZeros_paddedItem (f : List Nat) :
    rstripZeros (Packet.paddedItem f) = rstripZeros f := by
  have h : Packet.paddedItem f =
      f ++ List.replicate ((4 - (f.length + 1) % 4) % 4 + 1) 0 := by
    simp [Packet.paddedItem, List.replicate_succ, List.append_assoc]
  rw [h, rstripZeros_append_replicate]

theorem rstripZeros_eq_self (f : List Nat) (h : 0 ∉ f) : rstripZeros f = f := by
  unfold rstripZeros
  have hd : List.dropWhile (fun b => decide (b = 0)) f.reverse = f.reverse := by
    cases hf : f.reverse with
    | nil => rfl
    | cons a t =>
      have ha : a ∈ f := by
        rw [← List.mem_reverse, hf]; exact List.mem_cons_self a t
      have hne : ¬ a = 0 := fun e => h (e ▸ ha)
      simp [List.dropWhile_cons, hne]
  rw [hd, List.reverse_reverse]

theorem parseFields_encode (fields : List (List Nat)) (rest : List Nat)
    (hlen : ∀ f ∈ fields, f.length + 1 < 2 ^ 32) :
    Packet.parseFields ((fields.map Packet.encodeItem).flatten ++ rest) fields.length =
      .ok (fields.map rstripZeros, rest) := by
  induction fields with
  | nil => simp [Packet.parseFields]
  | cons f fs ih =>
    have hf : f.length + 1 < 2 ^ 32 := hlen f (List.mem_cons_self f fs)
    have hfs : ∀ g ∈ fs, g.length + 1 < 2 ^ 32 := fun g hg => hlen g (List.mem_cons_of_mem f hg)
    have hbody : ((List.map Packet.encodeItem (f :: fs)).flatten ++ rest) =
        u32Bytes (f.length + 1) ++ (Packet.paddedItem f ++ ((fs.map Packet.encodeItem).flatten ++ rest)) := by
      simp [encodeItem_eq, List.append_assoc]
    rw [List.length_cons, hbody]
    set tail := (fs.map Packet.encodeItem).flatten ++ rest with htail
    have hlen4 : (u32Bytes (f.length + 1) ++ (Packet.paddedItem f ++ tail)).length =
        4 + ((Packet.paddedItem f).length + tail.length) := by
      simp
    have hnot4 : ¬ (u32Bytes (f.length + 1) ++ (Packet.paddedItem f ++ tail)).length < 4 := by
      rw [hlen4]; omega
    have hread : readU32 (u32Bytes (f.length + 1) ++ (Packet.paddedItem f ++ tail)) = f.length + 1 := by
      rw [readU32_u32Bytes_append, Nat.mod_eq_of_lt hf]
    have hfit : ¬ (readU32 (u32Bytes (f.length + 1) ++ (Packet.paddedItem f ++ tail)) + 4 >
        (u32Bytes (f.length + 1) ++ (Packet.paddedItem f ++ tail)).length) := by
      rw [hread, hlen4, paddedItem_length]
      have := pad4Len_ge (f.length + 1)
      omega
    rw [Packet.parseFields, if_neg hnot4, if_neg hfit]
    have hdrop4 : (u32Bytes (f.length + 1) ++ (Packet.paddedItem f ++ tail)).drop 4 =
        Packet.paddedItem f ++ tail := by
      rw [← u32Bytes_length (f.length + 1)]; exact List.drop_left _ _
    rw [hdrop4, hread]
    have htake : (Packet.paddedItem f ++ tail).take (pad4Len (f.length + 1)) = Packet.paddedItem f := by
      rw [← paddedItem_length f]; exact List.take_left _ _
    have hdrop : (Packet.paddedItem f ++ tail).drop (pad4Len (f.length + 1)) = tail := by
      rw [← paddedItem_length f]; exact List.drop_left _ _
    simp only [htake, hdrop, ih hfs, List.map_cons, rstripZeros_paddedItem]

theorem drop4_u32 (n : Nat) (r : List Nat) : (u32Bytes n ++ r).drop 4 = r := rfl

theorem drop8_u32 (n : Nat) (r : List Nat) : (u32Bytes n ++ r).drop 8 = r.drop 4 := rfl

theorem drop12_u32 (n : Nat) (r : List Nat) : (u32Bytes n ++ r).drop 12 = r.drop 8 := rfl

theorem drop16_u32 (n : Nat) (r : List Nat) : (u32Bytes n ++ r).drop 16 = r.drop 12 := rfl

theorem drop4_i32 (v : Int) (r : List Nat) : (i32Bytes v ++ r).drop 4 = r := rfl

theorem drop8_i32 (v : Int) (r : List Nat) : (i32Bytes v ++ r).drop 8 = r.drop 4 := rfl

theorem flatten_encode_mod4 (fields : List (List Nat)) :
    ((fields.map Packet.encodeItem).flatten).length % 4 = 0 := by
  induction fields with
  | nil => rfl
  | cons f fs ih =>
    have h : (Packet.encodeItem f).length = 4 + pad4Len (f.length + 1) := by
      rw [encodeItem_eq]
      simp [paddedItem_length]
    simp only [List.map_cons, List.flatten_cons, List.length_append, h]
    have := pad4Len_mod (f.length + 1)
    omega

/-- Full evaluation of `Packet.parse` on the output of `Packet.build`:
within the representable ranges, decoding returns the opcode unchanged and
every field with its trailing zero bytes stripped. -/
theorem parse_build (op : Int) (fields : List (List Nat))
    (hop1 : -(2 ^ 31) ≤ op) (hop2 : op < 2 ^ 31)
    (hcnt : fields.length < 2 ^ 32)
    (hlen : ∀ f ∈ fields, f.length + 1 < 2 ^ 32) :
    Packet.parse (Packet.build op fields) =
      .ok ⟨(16 + ((fields.map Packet.encodeItem).flatten).length) % 2 ^ 32, op,
        fields.map rstripZeros⟩ := by
  have hL4 := flatten_encode_mod4 fields
  unfold Packet.build
  simp only
  set B := (fields.map Packet.encodeItem).flatten with hB
  have hassoc : u32Bytes (16 + B.length) ++ u32Bytes MOIRA_PROTOCOL_VERSION ++ i32Bytes op ++
      u32Bytes fields.length ++ B =
      u32Bytes (16 + B.length) ++
        (u32Bytes MOIRA_PROTOCOL_VERSION ++ (i32Bytes op ++ (u32Bytes fields.length ++ B))) := by
    simp [List.append_assoc]
  rw [hassoc]
  set orig := u32Bytes (16 + B.length) ++
    (u32Bytes MOIRA_PROTOCOL_VERSION ++ (i32Bytes op ++ (u32Bytes fields.length ++ B))) with horig
  have hlength : orig.length = 16 + B.length := by
    rw [horig]; simp; omega
  have hnot16 : ¬ orig.length < 16 := by omega
  have hread1 : readU32 orig = (16 + B.length) % 2 ^ 32 := by
    rw [horig, readU32_u32Bytes_append]
  have h4 : ¬ (readU32 orig % 4 ≠ 0) := by
    rw [hread1, Nat.mod_mod_of_dvd _ (by norm_num : (4 : Nat) ∣ 2 ^ 32)]
    omega
  have hver : readU32 (orig.drop 4) = 2 := by
    rw [horig, drop4_u32, readU32_u32Bytes_append]; decide
  have hst : readI32 (orig.drop 8) = op := by
    rw [horig, drop8_u32, drop4_u32, readI32_i32Bytes_append op _ hop1 hop2]
  have hargc : readU32 (orig.drop 12) = fields.length := by
    rw [horig, drop12_u32, drop8_u32, drop4_i32, readU32_u32Bytes_append,
      Nat.mod_eq_of_lt hcnt]
  have hbody : orig.drop 16 = B := by
    rw [horig, drop16_u32, drop12_u32, drop8_i32, drop4_u32]
  have hfields : Packet.parseFields B fields.length = .ok (fields.map rstripZeros, []) := by
    rw [hB, ← List.append_nil (List.map Packet.encodeItem fields).flatten]
    exact parseFields_encode fields [] hlen
  rw [Packet.parse.eq_def]
  rw [if_neg hnot16]
  simp only [hread1, hver, hst, hargc, hbody, hfields]
  have h4' : ¬ ((16 + B.length) % 2 ^ 32 % 4 ≠ 0) := by rw [← hread1]; exact h4
  rw [if_neg h4']
  simp

/-- C3: for every opcode in the signed 32-bit range and every field list
whose fields contain no zero byte (with the lengths representable, as
`struct.pack` requires), decoding the bytes produced by encoding yields
back exactly the original opcode and the original field sequence. -/
theorem decode_encode_roundtrip_no_zero (op : Int) (fields : List (List Nat))
    (hop1 : -(2 ^ 31) ≤ op) (hop2 : op < 2 ^ 31)
    (hcnt : fields.length < 2 ^ 32)
    (hlen : ∀ f ∈ fields, f.length + 1 < 2 ^ 32)
    (hz : ∀ f ∈ fields, 0 ∉ f) :
    (Packet.parse (Packet.build op fields)).map (fun p => (p.opcode, p.data)) =
      .ok (op, fields) := by
  rw [parse_build op fields hop1 hop2 hcnt hlen]
  have hmap : fields.map rstripZeros = fields := by
    rw [show fields.map rstripZeros = fields.map id from
      List.map_congr_left (fun f hf => rstripZeros_eq_self f (hz f hf)), List.map_id]
  rw [hmap]
  rfl

/-- Witness for `decode_encode_roundtrip_no_zero` at a concrete packet. -/
theorem decode_encode_roundtrip_no_zero_witness :
    (Packet.parse (Packet.build 100 [[72, 105], [33]])).map (fun p => (p.opcode, p.data)) =
      .ok (100, [[72, 105], [33]]) :=
  decode_encode_roundtrip_no_zero 100 [[72, 105], [33]]
    (by decide) (by decide) (by decide) (by decide) (by decide)

/-- C2 counterexample: the field `[97, 0, 98]` ("a\0b") contains a zero
byte followed by a non-zero byte, yet the round trip returns it unchanged
rather than truncated to the prefix `[97]` before the first zero byte:
`rstrip("\0")` in `Packet.parse` only removes trailing zero bytes. -/
theorem decode_encode_internal_zero_counterexample :
    (Packet.parse (Packet.build 0 [[97, 0, 98]])).map (fun p => p.data) =
      .ok [[97, 0, 98]] ∧
    [97, 0, 98].takeWhile (fun b => b ≠ 0) = [97] ∧
    [[97, 0, 98]] ≠ [[97]] := by
  refine ⟨by decide, by decide, by decide⟩

/-- C2 (amended): encoding and then decoding returns every field with its
trailing zero bytes stripped; in particular bytes that follow an internal
zero byte survive the round trip whenever a non-zero byte comes after
them. -/
theorem decode_encode_strips_trailing_zeros (op : Int) (fields : List (List Nat))
    (hop1 : -(2 ^ 31) ≤ op) (hop2 : op < 2 ^ 31)
    (hcnt : fields.length < 2 ^ 32)
    (hlen : ∀ f ∈ fields, f.length + 1 < 2 ^ 32) :
    (Packet.parse (Packet.build op fields)).map (fun p => (p.opcode, p.data)) =
      .ok (op, fields.map rstripZeros) := by
  rw [parse_build op fields hop1 hop2 hcnt hlen]
  rfl

/-- Witness for `decode_encode_strips_trailing_zeros`: a field with an
internal zero byte and a trailing zero byte. -/
theorem decode_encode_strips_trailing_zeros_witness :
    (Packet.parse (Packet.build 7 [[97, 0, 98, 0]])).map (fun p => (p.opcode, p.data)) =
      .ok (7, [[97, 0, 98]]) := by
  have h := decode_encode_strips_trailing_zeros 7 [[97, 0, 98, 0]]
    (by decide) (by decide) (by decide) (by decide)
  exact h.trans (by decide)

/-! ## Decode-failure conditions (claim C4) -/

theorem parseFields_vs_outcome (argc : Nat) : ∀ body : List Nat,
    (Packet.parseFields body argc = .error .protocol ∧
      (Packet.fieldsOutcome body argc = .truncated ∨ Packet.fieldsOutcome body argc = .overrun)) ∨
    (∃ fs r, Packet.parseFields body argc = .ok (fs, r) ∧
      Packet.fieldsOutcome body argc = (if r.length = 0 then .clean else .trailing)) := by
  induction argc with
  | zero =>
    intro body
    right
    refine ⟨[], body, rfl, ?_⟩
    rw [Packet.fieldsOutcome]
    rcases Nat.eq_zero_or_pos body.length with h | h
    · simp [h]
    · simp [h, Nat.pos_iff_ne_zero.mp h]
  | succ n ih =>
    intro body
    by_cases h4 : body.length < 4
    · left
      rw [Packet.parseFields, Packet.fieldsOutcome, if_pos h4, if_pos h4]
      exact ⟨rfl, Or.inl rfl⟩
    · by_cases hov : readU32 body + 4 > body.length
      · left
        rw [Packet.parseFields, Packet.fieldsOutcome, if_neg h4, if_neg h4]
        simp only [if_pos hov]
        exact ⟨trivial, Or.inr trivial⟩
      · rw [Packet.parseFields, Packet.fieldsOutcome, if_neg h4, if_neg h4]
        simp only [if_neg hov]
        rcases ih ((body.drop 4).drop (pad4Len (readU32 body))) with ⟨herr, hout⟩ | ⟨fs, r, hok, hout⟩
        · left
          rw [herr]
          exact ⟨rfl, hout⟩
        · right
          refine ⟨rstripZeros ((body.drop 4).take (pad4Len (readU32 body))) :: fs, r, ?_, hout⟩
          rw [hok]

/-- C4 counterexample: a buffer with a well-formed 16-byte header (total
length 16, version 2, field count 1) and an empty body.  `Packet.parse`
raises (the body ends before the first field's four-byte length word), yet
none of the four failure conditions of the claim holds: the total length
is a multiple of four, the version matches, no declared field length reads
past the buffer (there is no declared field length at all), and no bytes
remain after the declared fields. -/
theorem parse_failure_conditions_counterexample :
    Packet.parse [0, 0, 0, 16, 0, 0, 0, 2, 0, 0, 0, 0, 0, 0, 0, 1] = .error .protocol ∧
    ¬ (16 ≤ ([0, 0, 0, 16, 0, 0, 0, 2, 0, 0, 0, 0, 0, 0, 0, 1] : List Nat).length ∧
        (readU32 [0, 0, 0, 16, 0, 0, 0, 2, 0, 0, 0, 0, 0, 0, 0, 1] % 4 ≠ 0 ∨
         readU32 (([0, 0, 0, 16, 0, 0, 0, 2, 0, 0, 0, 0, 0, 0, 0, 1] : List Nat).drop 4) ≠ 2 ∨
         Packet.fieldsOutcome (([0, 0, 0, 16, 0, 0, 0, 2, 0, 0, 0, 0, 0, 0, 0, 1] : List Nat).drop 16)
           (readU32 (([0, 0, 0, 16, 0, 0, 0, 2, 0, 0, 0, 0, 0, 0, 0, 1] : List Nat).drop 12)) =
             .overrun ∨
         Packet.fieldsOutcome (([0, 0, 0, 16, 0, 0, 0, 2, 0, 0, 0, 0, 0, 0, 0, 1] : List Nat).drop 16)
           (readU32 (([0, 0, 0, 16, 0, 0, 0, 2, 0, 0, 0, 0, 0, 0, 0, 1] : List Nat).drop 12)) =
             .trailing)) := by
  decide

/-- C4 (amended): `Packet.parse` raises its own error (rather than letting
`struct.unpack` fail) exactly when the buffer holds a full 16-byte header
and the declared total length is not a multiple of four, or the version is
not 2, or the body ends before some declared field's length word, or some
declared field length would read past the remaining buffer, or bytes
remain after all declared fields have been consumed. -/
theorem parse_failure_conditions (orig : List Nat) :
    Packet.parse orig = .error .protocol ↔
      16 ≤ orig.length ∧
        (readU32 orig % 4 ≠ 0 ∨
         readU32 (orig.drop 4) ≠ 2 ∨
         Packet.fieldsOutcome (orig.drop 16) (readU32 (orig.drop 12)) = .truncated ∨
         Packet.fieldsOutcome (orig.drop 16) (readU32 (orig.drop 12)) = .overrun ∨
         Packet.fieldsOutcome (orig.drop 16) (readU32 (orig.drop 12)) = .trailing) := by
  by_cases h16 : orig.length < 16
  · rw [Packet.parse, if_pos h16]
    constructor
    · intro h
      exact absurd h (by simp)
    · intro ⟨hge, _⟩
      omega
  · rw [Packet.parse, if_neg h16]
    by_cases hc1 : readU32 orig % 4 ≠ 0
    · simp only [if_pos hc1]
      constructor
      · intro _
        exact ⟨by omega, Or.inl hc1⟩
      · intro _
        trivial
    · simp only [if_neg hc1]
      by_cases hc2 : readU32 (orig.drop 4) ≠ 2
      · simp only [if_pos hc2]
        constructor
        · intro _
          exact ⟨by omega, Or.inr (Or.inl hc2)⟩
        · intro _
          trivial
      · simp only [if_neg hc2]
        rcases parseFields_vs_outcome (readU32 (orig.drop 12)) (orig.drop 16) with
          ⟨herr, hout⟩ | ⟨fs, r, hok, hout⟩
        · rw [herr]
          constructor
          · intro _
            refine ⟨by omega, Or.inr (Or.inr ?_)⟩
            rcases hout with h | h
            · exact Or.inl h
            · exact Or.inr (Or.inl h)
          · intro _
            trivial
        · rw [hok]
          by_cases hr : r.length = 0
          · have hclean : Packet.fieldsOutcome (orig.drop 16) (readU32 (orig.drop 12)) = .clean := by
              rw [hout, if_pos hr]
            have hnot : ¬ r.length > 0 := by omega
            simp only [if_neg hnot]
            constructor
            · intro h
              exact absurd h (by simp)
            · intro ⟨_, hdisj⟩
              rcases hdisj with h | h | h | h | h
              · exact absurd h hc1
              · exact absurd h hc2
              all_goals rw [hclean] at h; exact absurd h (by simp)
          · have htrail : Packet.fieldsOutcome (orig.drop 16) (readU32 (orig.drop 12)) = .trailing := by
              rw [hout, if_neg hr]
            have hpos : r.length > 0 := by omega
            simp only [if_pos hpos]
            constructor
            · intro _
              exact ⟨by omega, Or.inr (Or.inr (Or.inr (Or.inr htrail)))⟩
            · intro _
              trivial

/-! ## Claim C10: what `Packet.parse` does not validate -/

theorem parse_ignores_declared_length (l1 l2 : Nat) (rest : List Nat)
    (h : l1 % 4 = l2 % 4) :
    (Packet.parse (u32Bytes l1 ++ rest)).map (fun p => (p.opcode, p.data)) =
      (Packet.parse (u32Bytes l2 ++ rest)).map (fun p => (p.opcode, p.data)) := by
  have hlen : ∀ n : Nat, (u32Bytes n ++ rest).length = 4 + rest.length := by
    intro n; simp
  have hm : ∀ n : Nat, readU32 (u32Bytes n ++ rest) % 4 = n % 4 := fun n => by
    rw [readU32_u32Bytes_append, Nat.mod_mod_of_dvd _ (by norm_num : (4 : Nat) ∣ 2 ^ 32)]
  rw [Packet.parse, Packet.parse]
  by_cases h16 : (u32Bytes l1 ++ rest).length < 16
  · have h16b : (u32Bytes l2 ++ rest).length < 16 := by
      rw [hlen]; rw [hlen] at h16; exact h16
    rw [if_pos h16, if_pos h16b]
  · have h16b : ¬ (u32Bytes l2 ++ rest).length < 16 := by
      rw [hlen]; rw [hlen] at h16; exact h16
    rw [if_neg h16, if_neg h16b]
    by_cases hc1 : readU32 (u32Bytes l1 ++ rest) % 4 ≠ 0
    · have hc1' : readU32 (u32Bytes l2 ++ rest) % 4 ≠ 0 := by
        rw [hm] at hc1 ⊢; omega
      rw [if_pos hc1, if_pos hc1']
    · have hc1' : ¬ readU32 (u32Bytes l2 ++ rest) % 4 ≠ 0 := by
        rw [hm] at hc1 ⊢; omega
      rw [if_neg hc1, if_neg hc1']
      rw [drop4_u32, drop4_u32, drop8_u32, drop8_u32, drop12_u32, drop12_u32,
        drop16_u32, drop16_u32]
      by_cases hc2 : readU32 rest ≠ 2
      · rw [if_pos hc2, if_pos hc2]
      · rw [if_neg hc2, if_neg hc2]
        cases hpf : Packet.parseFields (rest.drop 12) (readU32 (rest.drop 8)) with
        | error e => rfl
        | ok p =>
          obtain ⟨fs, r⟩ := p
          dsimp only
          by_cases hr : r.length > 0
          · rw [if_pos hr, if_pos hr]
          · rw [if_neg hr, if_neg hr]
            simp [Except.map]

/-- C10: `Packet.parse` validates a field's declared unpadded length only
against the remaining buffer.  First conjuncts: on a buffer whose single
field declares unpadded length 5 with only 5 value bytes present (so the
zero-padded length 8 exceeds the 5 remaining bytes) and whose declared
total length 24 differs from the actual 25-byte buffer size, decoding
succeeds and silently returns the short field.  Last conjunct: the decode
outcome apart from the recorded raw length never depends on the declared
total length beyond its residue modulo four — the declared length is never
compared against the actual size of the input. -/
theorem parse_unpadded_only_and_no_total_length_check :
    (Packet.parse [0, 0, 0, 24, 0, 0, 0, 2, 0, 0, 0, 0, 0, 0, 0, 1, 0, 0, 0, 5,
        97, 98, 99, 100, 101] = .ok ⟨24, 0, [[97, 98, 99, 100, 101]]⟩ ∧
      ([0, 0, 0, 24, 0, 0, 0, 2, 0, 0, 0, 0, 0, 0, 0, 1, 0, 0, 0, 5,
        97, 98, 99, 100, 101] : List Nat).length = 25 ∧
      readU32 [0, 0, 0, 24, 0, 0, 0, 2, 0, 0, 0, 0, 0, 0, 0, 1, 0, 0, 0, 5,
        97, 98, 99, 100, 101] = 24 ∧
      readU32 (([0, 0, 0, 24, 0, 0, 0, 2, 0, 0, 0, 0, 0, 0, 0, 1, 0, 0, 0, 5,
        97, 98, 99, 100, 101] : List Nat).drop 16) + 4 ≤ 9 ∧
      pad4Len 5 + 4 > 9) ∧
    ∀ l1 l2 : Nat, ∀ rest : List Nat, l1 % 4 = l2 % 4 →
      (Packet.parse (u32Bytes l1 ++ rest)).map (fun p => (p.opcode, p.data)) =
        (Packet.parse (u32Bytes l2 ++ rest)).map (fun p => (p.opcode, p.data)) :=
  ⟨by decide, parse_ignores_declared_length⟩

/-- Witness for `parse_unpadded_only_and_no_total_length_check`: the
declared total length 4096 against 24 on the same packet bytes gives the
same decode outcome. -/
theorem parse_unpadded_only_and_no_total_length_check_witness :
    (Packet.parse (u32Bytes 24 ++ [0, 0, 0, 2, 0, 0, 0, 0, 0, 0, 0, 0])).map
        (fun p => (p.opcode, p.data)) =
      (Packet.parse (u32Bytes 4096 ++ [0, 0, 0, 2, 0, 0, 0, 0, 0, 0, 0, 0])).map
        (fun p => (p.opcode, p.data)) :=
  parse_unpadded_only_and_no_total_length_check.2 24 4096
    [0, 0, 0, 2, 0, 0, 0, 0, 0, 0, 0, 0] (by decide)

/-! ## Receiving packets (`src/client.py`, `MoiraClient.recv` / `recvPacket`) -/

/-- Errors surfacing from `MoiraClient.recvPacket`: `conn` is the
`MoiraConnectionError` raised by `recv` (stream closed before the requested
bytes arrived) or by the `length < 4` check; the other two re-export how
`Packet.parse` failed (its own raised error versus `struct.error`). -/
inductive RecvErr where
  | conn
  | parseProtocol
  | parseStruct
  deriving DecidableEq, Repr

/-- `MoiraClient.recv(buffer_size, exact=True)` from `src/client.py`:
`avail` is the byte stream the server delivers before closing the
connection.  The loop collects exactly `bufferSize` bytes, raising
`MoiraConnectionError` if the stream closes first; the unread remainder of
the stream is returned alongside. -/
def MoiraClient.recv (avail : List Nat) (bufferSize : Nat) :
    Except Unit (List Nat × List Nat) :=
  if avail.length < bufferSize then .error ()
  else .ok (avail.take bufferSize, avail.drop bufferSize)

/-- `MoiraClient.recvPacket` from `src/client.py`: read 4 bytes, interpret
them as the declared total length, reject lengths below 4, read
`length - 4` further bytes, and parse the concatenation. -/
def MoiraClient.recvPacket (avail : List Nat) :
    Except RecvErr (ParsedPacket × List Nat) :=
  match MoiraClient.recv avail 4 with
  | .error _ => .error .conn
  | .ok (lengthData, rest) =>
    let length := readU32 lengthData
    if length < 4 then .error .conn
    else
      match MoiraClient.recv rest (length - 4) with
      | .error _ => .error .conn
      | .ok (remainder, rest2) =>
        match Packet.parse (lengthData ++ remainder) with
        | .error .protocol => .error .parseProtocol
        | .error .structError => .error .parseStruct
        | .ok p => .ok (p, rest2)

/-- C5 counterexample: the stream starts with a declared total length of 8,
which is below the 16-byte header minimum, yet `recvPacket` does not fail
with a `ConnectionError`: its guard only rejects lengths below 4, so it
reads 4 more bytes and hands an 8-byte buffer to `Packet.parse`, which
dies with `struct.error`. -/
theorem recvPacket_small_length_counterexample :
    MoiraClient.recvPacket [0, 0, 0, 8, 0, 0, 0, 2] = .error .parseStruct ∧
    readU32 [0, 0, 0, 8] = 8 ∧ (8 : Nat) < 16 ∧
    MoiraClient.recvPacket [0, 0, 0, 8, 0, 0, 0, 2] ≠ .error .conn := by
  decide

/-- C5 (amended): `recvPacket` first reads exactly 4 bytes for the declared
total length.  It fails with `ConnectionError` exactly when the stream
closes before requested bytes arrive or the declared length is below 4
(not below the 16-byte header minimum); otherwise it reads exactly
`length - 4` further bytes, so the decoder sees precisely the first
`length` bytes of the stream. -/
theorem recvPacket_reads_declared_length (avail : List Nat) :
    (MoiraClient.recvPacket avail = .error .conn ↔
      (avail.length < 4 ∨ readU32 (avail.take 4) < 4 ∨
        (4 ≤ readU32 (avail.take 4) ∧ avail.length < readU32 (avail.take 4)))) ∧
    (4 ≤ readU32 (avail.take 4) → readU32 (avail.take 4) ≤ avail.length →
      MoiraClient.recvPacket avail =
        match Packet.parse (avail.take (readU32 (avail.take 4))) with
        | .error .protocol => .error .parseProtocol
        | .error .structError => .error .parseStruct
        | .ok p => .ok (p, avail.drop (readU32 (avail.take 4)))) := by
  unfold MoiraClient.recvPacket MoiraClient.recv
  by_cases h4 : avail.length < 4
  · rw [if_pos h4]
    constructor
    · constructor
      · intro _
        exact Or.inl h4
      · intro _
        rfl
    · intro _ hle
      have hlt : readU32 (avail.take 4) < 4 := by omega
      omega
  · rw [if_neg h4]
    dsimp only
    set L := readU32 (avail.take 4) with hL
    by_cases hsmall : L < 4
    · rw [if_pos hsmall]
      constructor
      · constructor
        · intro _
          exact Or.inr (Or.inl hsmall)
        · intro _
          rfl
      · intro hge _
        omega
    · rw [if_neg hsmall]
      by_cases henough : (avail.drop 4).length < L - 4
      · rw [if_pos henough]
        have hlt : avail.length < L := by
          rw [List.length_drop] at henough
          omega
        constructor
        · constructor
          · intro _
            exact Or.inr (Or.inr ⟨by omega, hlt⟩)
          · intro _
            rfl
        · intro _ hle
          omega
      · rw [if_neg henough]
        dsimp only
        have hle : L ≤ avail.length := by
          rw [List.length_drop] at henough
          omega
        have htake : avail.take 4 ++ (avail.drop 4).take (L - 4) = avail.take L := by
          rw [← List.take_add]
          congr 1
          omega
        have hdrop : (avail.drop 4).drop (L - 4) = avail.drop L := by
          rw [List.drop_drop]
          congr 1
          omega
        rw [htake, hdrop]
        constructor
        · constructor
          · intro hcontra
            cases hp : Packet.parse (avail.take L) with
            | error e =>
              cases e <;> rw [hp] at hcontra <;> exact absurd hcontra (by simp)
            | ok p => rw [hp] at hcontra; exact absurd hcontra (by simp)
          · intro hdisj
            rcases hdisj with h | h | ⟨_, h⟩
            · omega
            · omega
            · omega
        · intro _ _
          rfl

/-- Witness for `recvPacket_reads_declared_length`: a complete 16-byte frame
followed by two extra stream bytes is decoded from exactly its declared
length. -/
theorem recvPacket_reads_declared_length_witness :
    MoiraClient.recvPacket [0, 0, 0, 16, 0, 0, 0, 2, 0, 0, 0, 0, 0, 0, 0, 0, 9, 9] =
      .ok (⟨16, 0, []⟩, [9, 9]) := by
  have h := (recvPacket_reads_declared_length
    [0, 0, 0, 16, 0, 0, 0, 2, 0, 0, 0, 0, 0, 0, 0, 0, 9, 9]).2 (by decide) (by decide)
  exact h.trans (by decide)

/-! ## Version negotiation (`src/client.py`, `MoiraClient.setVersion`) -/

/-- The negotiated-version attribute of `MoiraClient`: `__init__` assigns
`self.version = None` and no other statement in `src/client.py` ever
assigns it. -/
structure VersionState where
  version : Option Nat
  deriving DecidableEq, Repr

/-- `MoiraClient.setVersion` from `src/client.py` (lines 144-154).  The
first component counts the network round trips performed (the
`sendPacket`/`recvPacket` pair).  `mrSuccess` and `mrVersionLow` are the
values of `MR_SUCCESS` and `MR_VERSION_LOW` from the repository's
`moira_constants` module (not under `src/`); `respOpcode` is the status
the server answers with.  Faithful to the source, the method returns
without ever assigning `self.version`. -/
def MoiraClient.setVersion (mrSuccess mrVersionLow : Int) (st : VersionState)
    (v : Nat) (respOpcode : Int) : Nat × Except Int VersionState :=
  if st.version = some v then (0, .ok st)
  else if respOpcode ≠ mrSuccess ∧ respOpcode ≠ mrVersionLow then (1, .error respOpcode)
  else (1, .ok st)

/-- Two successive `setVersion` calls with the same argument, threading the
state and adding up the round trips. -/
def MoiraClient.setVersionTwice (mrSuccess mrVersionLow : Int) (st : VersionState)
    (v : Nat) (respOpcode : Int) : Nat × Except Int VersionState :=
  match MoiraClient.setVersion mrSuccess mrVersionLow st v respOpcode with
  | (n, .error c) => (n, .error c)
  | (n, .ok st2) =>
    match MoiraClient.setVersion mrSuccess mrVersionLow st2 v respOpcode with
    | (m, r) => (n + m, r)

/-- C1 (code bug): with `MR_SUCCESS = 0`, `MR_VERSION_LOW = 1` and the
server answering success, calling `setVersion 14` twice from the
post-`__init__` state (`version = None`) performs two round trips, not
one, and leaves the negotiated-version attribute at `None`, not 14 —
`setVersion` never records the version it sets, so its own guard can
never fire for a previously set version.  The guard itself does work
when the state already holds the requested version. -/
theorem setVersion_twice_sends_twice :
    MoiraClient.setVersionTwice 0 1 ⟨none⟩ 14 0 = (2, .ok ⟨none⟩) ∧
    (MoiraClient.setVersionTwice 0 1 ⟨none⟩ 14 0).1 ≠ 1 ∧
    (⟨none⟩ : VersionState).version ≠ some 14 ∧
    MoiraClient.setVersion 0 1 ⟨some 14⟩ 14 0 = (0, .ok ⟨some 14⟩) := by
  decide

/-! ## List member construction (`src/lists.py`, `MoiraListMember.__init__`) -/

/-- A Moira list member as `src/lists.py` models it: a member type token
and a name.  Equality in the source (`__eq__`/`__hash__`) compares
`(mtype, name)`. -/
structure MoiraListMember where
  mtype : String
  name : String
  deriving DecidableEq, Repr

/-- `MoiraListMember.types` from `src/lists.py` (line 21): the tuple of
valid member type tokens — five entries, with no `NONE`. -/
def MoiraListMember.types : List String := ["USER", "KERBEROS", "LIST", "STRING", "MACHINE"]

/-- `MoiraListMember.__init__` (`src/lists.py` lines 23-29): raises
`MoiraUserError` exactly when the member type token is not in `types`. -/
def MoiraListMember.init (mtype name : String) : Except Unit MoiraListMember :=
  if mtype ∉ MoiraListMember.types then .error () else .ok ⟨mtype, name⟩

/-- C9 counterexample: `NONE` belongs to the claim's six-element kind set,
yet `MoiraListMember.__init__` in `src/lists.py` rejects it with
`MoiraUserError` — its `types` tuple has only five entries.  (The packaged
copy `src/pymoira/lists.py` does list NONE; the cited module does not.) -/
theorem memberInit_none_counterexample :
    MoiraListMember.init "NONE" "x" = .error () ∧
    "NONE" ∈ ["USER", "KERBEROS", "LIST", "STRING", "MACHINE", "NONE"] := by
  decide

/-- C9 (amended): constructing a `MoiraListMember` succeeds exactly for
the five kind tokens USER, KERBEROS, LIST, STRING, MACHINE, and raises
`UserError` exactly when the token lies outside this five-element set
(so in particular for `NONE`). -/
theorem memberInit_ok_iff (mtype name : String) :
    (MoiraListMember.init mtype name = .ok ⟨mtype, name⟩ ↔
      mtype ∈ ["USER", "KERBEROS", "LIST", "STRING", "MACHINE"]) ∧
    (MoiraListMember.init mtype name = .error () ↔
      mtype ∉ ["USER", "KERBEROS", "LIST", "STRING", "MACHINE"]) := by
  unfold MoiraListMember.init MoiraListMember.types
  by_cases h : mtype ∈ (["USER", "KERBEROS", "LIST", "STRING", "MACHINE"] : List String)
  · simp [h]
  · simp [h]

/-! ## Client-side list expansion (`src/lists.py`, `MoiraList.getAllMembers`)

The server is modelled by `env : String → Except Int (List MoiraListMember)`,
mapping a list name to the outcome of
`MoiraList(client, name).getExplicitMembers()`: either the explicit member
set of that list or the numeric code of the raised `MoiraError`.  `mrPerm`
is the value of `MR_PERM` from the repository's `moira_constants` module
(not under `src/`).  A Python `set`/`frozenset` is modelled as a
duplicate-free list; iteration order over `to_expand` is fixed to
first-occurrence order, which is sound because every observable part of
the result is independent of that order.  The `log` field additionally
records, in order, every list name whose explicit-membership query was
issued during the expansion. -/

/-- Failures of the client-side expansion: the
`MoiraUserError("List expansion depth limit exceeded")` raised when
`current_depth` exceeds `MOIRA_MAX_LIST_DEPTH`, or a propagated
`MoiraError` with its code. -/
inductive ExpandErr where
  | depthLimit
  | moiraError (code : Int)
  deriving DecidableEq, Repr

/-- The tuple `(members, denied, known)` returned by `getAllMembers`, plus
the instrumentation field `log` of issued membership queries. -/
structure ExpandResult where
  members : List MoiraListMember
  denied : List String
  known : List (String × Option (List MoiraListMember))
  log : List String
  deriving DecidableEq, Repr

/-- The `for sublist_name in to_expand` body (`src/lists.py` lines
144-156): query each name; on a `MoiraError` with code `MR_PERM` record
the name in `denied` and `known[name] = None` and continue; any other
`MoiraError` propagates; on success record `known[name] = new_members`
and merge the new members into the running member set. -/
def MoiraList.expandBatch (mrPerm : Int)
    (env : String → Except Int (List MoiraListMember)) :
    List String → List MoiraListMember →
      List (String × Option (List MoiraListMember)) → List String → List String →
      Except Int (List MoiraListMember ×
        List (String × Option (List MoiraListMember)) × List String × List String)
  | [], members, known, denied, log => .ok (members, known, denied, log)
  | n :: rest, members, known, denied, log =>
    match env n with
    | .error c =>
      if c = mrPerm then
        MoiraList.expandBatch mrPerm env rest members
          (known ++ [(n, none)]) (denied ++ [n]) (log ++ [n])
      else .error c
    | .ok ms =>
      MoiraList.expandBatch mrPerm env rest (members ++ ms.filter (fun m => m ∉ members))
        (known ++ [(n, some ms)]) denied (log ++ [n])

/-- `to_expand = {member.name for member in members if type(member) == MoiraList} - set(known)`
(`src/lists.py` line 143), as a duplicate-free list in first-occurrence
order. -/
def MoiraList.toExpand (members : List MoiraListMember)
    (known : List (String × Option (List MoiraListMember))) : List String :=
  (((members.filter (fun m => m.mtype = "LIST")).map MoiraListMember.name).dedup).filter
    (fun n => n ∉ known.map Prod.fst)

/-- The `while to_expand` loop (`src/lists.py` lines 138-156).  `fuel` is
the number of iterations still allowed before `current_depth` exceeds
`MOIRA_MAX_LIST_DEPTH`; `fuel = 0` is exactly the state in which the next
iteration raises the depth-limit `MoiraUserError`. -/
def MoiraList.expandLoop (mrPerm : Int)
    (env : String → Except Int (List MoiraListMember)) :
    Nat → List MoiraListMember →
      List (String × Option (List MoiraListMember)) → List String → List String →
      Except ExpandErr ExpandResult
  | 0, _, _, _, _ => .error .depthLimit
  | fuel + 1, members, known, denied, log =>
    let te := MoiraList.toExpand members known
    if te = [] then .ok ⟨members, denied, known, log⟩
    else
      match MoiraList.expandBatch mrPerm env te members known denied log with
      | .error c => .error (.moiraError c)
      | .ok (members2, known2, denied2, log2) =>
        MoiraList.expandLoop mrPerm env fuel members2 known2 denied2 log2

/-- The client-side path of `MoiraList.getAllMembers` (`src/lists.py`
lines 125-161): query the root list itself (any error there, including a
permission error, propagates), seed `known` with it, run the expansion
loop, and finally drop `MoiraList` entries from the member set unless
`include_lists` was requested. -/
def MoiraList.getAllMembers (mrPerm : Int)
    (env : String → Except Int (List MoiraListMember)) (includeLists : Bool)
    (root : String) : Except ExpandErr ExpandResult :=
  match env root with
  | .error c => .error (.moiraError c)
  | .ok ms =>
    match MoiraList.expandLoop mrPerm env MOIRA_MAX_LIST_DEPTH ms [(root, some ms)] [] [] with
    | .error e => .error e
    | .ok r =>
      .ok ⟨if includeLists then r.members else r.members.filter (fun m => ¬ m.mtype = "LIST"),
        r.denied, r.known, r.log⟩

/-! ### Association-list and frontier lemmas -/

theorem lookup_append_left' {α β : Type} [BEq α] [LawfulBEq α] (a : α) (l1 l2 : List (α × β)) (v : β)
    (h : List.lookup a l1 = some v) : List.lookup a (l1 ++ l2) = some v := by
  induction l1 with
  | nil => simp [List.lookup] at h
  | cons p t ih =>
    obtain ⟨k, w⟩ := p
    rw [List.cons_append, List.lookup]
    rw [List.lookup] at h
    cases hk : a == k
    · simp only [hk] at h ⊢
      exact ih h
    · simp only [hk] at h ⊢
      exact h

theorem lookup_append_right' {α β : Type} [BEq α] [LawfulBEq α] (a : α) (l1 l2 : List (α × β))
    (h : List.lookup a l1 = none) : List.lookup a (l1 ++ l2) = List.lookup a l2 := by
  induction l1 with
  | nil => simp
  | cons p t ih =>
    obtain ⟨k, w⟩ := p
    rw [List.cons_append, List.lookup]
    rw [List.lookup] at h
    cases hk : a == k
    · simp only [hk] at h ⊢
      exact ih h
    · simp only [hk] at h
      exact absurd h (by simp)

theorem lookup_eq_none_of_not_mem_keys {α β : Type} [BEq α] [LawfulBEq α] (a : α) (l : List (α × β))
    (h : a ∉ l.map Prod.fst) : List.lookup a l = none := by
  induction l with
  | nil => rfl
  | cons p t ih =>
    obtain ⟨k, w⟩ := p
    rw [List.lookup]
    have hk : (a == k) = false := by
      rw [beq_eq_false_iff_ne]
      intro he
      exact h (by simp [he])
    simp only [hk]
    exact ih (fun hm => h (by simp only [List.map_cons, List.mem_cons]; exact Or.inr hm))

theorem nodup_append_singleton {α : Type} (l : List α) (a : α) (h : l.Nodup) (ha : a ∉ l) :
    (l ++ [a]).Nodup := by
  rw [List.nodup_append]
  exact ⟨h, List.nodup_singleton a, by simp [List.Disjoint]; intro x hx hxa; exact ha (hxa ▸ hx)⟩

theorem toExpand_nodup (members : List MoiraListMember)
    (known : List (String × Option (List MoiraListMember))) :
    (MoiraList.toExpand members known).Nodup :=
  List.Nodup.filter _ (List.nodup_dedup _)

theorem toExpand_fresh (members : List MoiraListMember)
    (known : List (String × Option (List MoiraListMember))) :
    ∀ n ∈ MoiraList.toExpand members known, n ∉ known.map Prod.fst := by
  intro n hn
  have := List.of_mem_filter hn
  simpa using this

theorem toExpand_from_members (members : List MoiraListMember)
    (known : List (String × Option (List MoiraListMember))) :
    ∀ n ∈ MoiraList.toExpand members known,
      ∃ m ∈ members, m.mtype = "LIST" ∧ m.name = n := by
  intro n hn
  have hmem := List.mem_of_mem_filter hn
  rw [List.mem_dedup] at hmem
  obtain ⟨m, hm, hname⟩ := List.mem_map.mp hmem
  have hl := List.of_mem_filter hm
  exact ⟨m, List.mem_of_mem_filter hm, by simpa using hl, hname⟩

/-! ### Properties of one expansion batch -/

theorem expandBatch_keys (mrPerm : Int) (env : String → Except Int (List MoiraListMember))
    (names : List String) : ∀ members known denied log m2 k2 d2 l2,
    MoiraList.expandBatch mrPerm env names members known denied log = .ok (m2, k2, d2, l2) →
    k2.map Prod.fst = known.map Prod.fst ++ names ∧ l2 = log ++ names := by
  induction names with
  | nil =>
    intro members known denied log m2 k2 d2 l2 h
    rw [MoiraList.expandBatch] at h
    simp only [Except.ok.injEq, Prod.mk.injEq] at h
    obtain ⟨h1, h2, h3, h4⟩ := h
    subst h2; subst h4
    simp
  | cons n rest ih =>
    intro members known denied log m2 k2 d2 l2 h
    rw [MoiraList.expandBatch] at h
    cases henv : env n with
    | error c =>
      rw [henv] at h
      dsimp only at h
      by_cases hp : c = mrPerm
      · rw [if_pos hp] at h
        obtain ⟨hk, hl⟩ := ih _ _ _ _ _ _ _ _ h
        constructor
        · rw [hk]
          simp
        · rw [hl]
          simp
      · rw [if_neg hp] at h
        exact absurd h (by simp)
    | ok ms =>
      rw [henv] at h
      dsimp only at h
      obtain ⟨hk, hl⟩ := ih _ _ _ _ _ _ _ _ h
      constructor
      · rw [hk]
        simp
      · rw [hl]
        simp

theorem expandBatch_members_from_env (mrPerm : Int)
    (env : String → Except Int (List MoiraListMember))
    (names : List String) : ∀ members known denied log m2 k2 d2 l2,
    MoiraList.expandBatch mrPerm env names members known denied log = .ok (m2, k2, d2, l2) →
    ∀ m ∈ m2, m ∈ members ∨ ∃ n ms, env n = .ok ms ∧ m ∈ ms := by
  induction names with
  | nil =>
    intro members known denied log m2 k2 d2 l2 h
    rw [MoiraList.expandBatch] at h
    simp only [Except.ok.injEq, Prod.mk.injEq] at h
    obtain ⟨h1, _, _, _⟩ := h
    subst h1
    intro m hm
    exact Or.inl hm
  | cons n rest ih =>
    intro members known denied log m2 k2 d2 l2 h
    rw [MoiraList.expandBatch] at h
    cases henv : env n with
    | error c =>
      rw [henv] at h
      dsimp only at h
      by_cases hp : c = mrPerm
      · rw [if_pos hp] at h
        exact ih _ _ _ _ _ _ _ _ h
      · rw [if_neg hp] at h
        exact absurd h (by simp)
    | ok ms =>
      rw [henv] at h
      dsimp only at h
      intro m hm
      rcases ih _ _ _ _ _ _ _ _ h m hm with hmem | hex
      · rcases List.mem_append.mp hmem with h1 | h1
        · exact Or.inl h1
        · exact Or.inr ⟨n, ms, henv, List.mem_of_mem_filter h1⟩
      · exact Or.inr hex

theorem expandBatch_error (mrPerm : Int) (env : String → Except Int (List MoiraListMember))
    (names : List String) : ∀ members known denied log c,
    MoiraList.expandBatch mrPerm env names members known denied log = .error c →
    c ≠ mrPerm ∧ ∃ n ∈ names, env n = .error c := by
  induction names with
  | nil =>
    intro members known denied log c h
    rw [MoiraList.expandBatch] at h
    exact absurd h (by simp)
  | cons n rest ih =>
    intro members known denied log c h
    rw [MoiraList.expandBatch] at h
    cases henv : env n with
    | error e =>
      rw [henv] at h
      dsimp only at h
      by_cases hp : e = mrPerm
      · rw [if_pos hp] at h
        obtain ⟨hne, n2, hn2, he2⟩ := ih _ _ _ _ _ h
        exact ⟨hne, n2, List.mem_cons_of_mem n hn2, he2⟩
      · rw [if_neg hp] at h
        injection h with h
        subst h
        exact ⟨hp, n, List.mem_cons_self n rest, henv⟩
    | ok ms =>
      rw [henv] at h
      dsimp only at h
      obtain ⟨hne, n2, hn2, he2⟩ := ih _ _ _ _ _ h
      exact ⟨hne, n2, List.mem_cons_of_mem n hn2, he2⟩

theorem expandBatch_invariant (mrPerm : Int)
    (env : String → Except Int (List MoiraListMember)) (root : String)
    (names : List String) : ∀ members known denied log m2 k2 d2 l2,
    MoiraList.expandBatch mrPerm env names members known denied log = .ok (m2, k2, d2, l2) →
    names.Nodup → (∀ n ∈ names, n ∉ known.map Prod.fst) →
    known.map Prod.fst = root :: log →
    (root :: log).Nodup →
    (∀ n ∈ log, env n = .error mrPerm → n ∈ denied ∧ List.lookup n known = some none) →
    (k2.map Prod.fst = root :: l2 ∧ (root :: l2).Nodup ∧
      (∀ n ∈ l2, env n = .error mrPerm → n ∈ d2 ∧ List.lookup n k2 = some none)) := by
  induction names with
  | nil =>
    intro members known denied log m2 k2 d2 l2 h _ _ hkeys hnd hrec
    rw [MoiraList.expandBatch] at h
    simp only [Except.ok.injEq, Prod.mk.injEq] at h
    obtain ⟨_, h2, h3, h4⟩ := h
    subst h2; subst h3; subst h4
    exact ⟨hkeys, hnd, hrec⟩
  | cons n rest ih =>
    intro members known denied log m2 k2 d2 l2 h hnodup hfresh hkeys hnd hrec
    have hnodup2 : rest.Nodup := (List.nodup_cons.mp hnodup).2
    have hn_rest : n ∉ rest := (List.nodup_cons.mp hnodup).1
    have hn_keys : n ∉ known.map Prod.fst := hfresh n (List.mem_cons_self n rest)
    rw [MoiraList.expandBatch] at h
    cases henv : env n with
    | error c =>
      rw [henv] at h
      dsimp only at h
      by_cases hp : c = mrPerm
      · rw [if_pos hp] at h
        subst hp
        refine ih _ _ _ _ _ _ _ _ h hnodup2 ?_ ?_ ?_ ?_
        · intro x hx
          simp only [List.map_append, List.map_cons, List.map_nil, List.mem_append,
            List.mem_singleton]
          rintro (hx1 | hx2)
          · exact hfresh x (List.mem_cons_of_mem n hx) hx1
          · exact hn_rest (hx2 ▸ hx)
        · simp only [List.map_append, List.map_cons, List.map_nil, hkeys]
          rfl
        · rw [show root :: (log ++ [n]) = (root :: log) ++ [n] from rfl]
          refine nodup_append_singleton _ _ hnd ?_
          rw [← hkeys]
          exact hn_keys
        · intro x hx hxe
          rcases List.mem_append.mp hx with hx1 | hx2
          · obtain ⟨hd, hlk⟩ := hrec x hx1 hxe
            exact ⟨List.mem_append_left _ hd, lookup_append_left' _ _ _ _ hlk⟩
          · rw [List.mem_singleton] at hx2
            subst hx2
            refine ⟨List.mem_append_right _ (List.mem_singleton_self x), ?_⟩
            rw [lookup_append_right' _ _ _ (lookup_eq_none_of_not_mem_keys _ _ hn_keys)]
            simp [List.lookup]
      · rw [if_neg hp] at h
        exact absurd h (by simp)
    | ok ms =>
      rw [henv] at h
      dsimp only at h
      refine ih _ _ _ _ _ _ _ _ h hnodup2 ?_ ?_ ?_ ?_
      · intro x hx
        simp only [List.map_append, List.map_cons, List.map_nil, List.mem_append,
          List.mem_singleton]
        rintro (hx1 | hx2)
        · exact hfresh x (List.mem_cons_of_mem n hx) hx1
        · exact hn_rest (hx2 ▸ hx)
      · simp only [List.map_append, List.map_cons, List.map_nil, hkeys]
        rfl
      · rw [show root :: (log ++ [n]) = (root :: log) ++ [n] from rfl]
        refine nodup_append_singleton _ _ hnd ?_
        rw [← hkeys]
        exact hn_keys
      · intro x hx hxe
        rcases List.mem_append.mp hx with hx1 | hx2
        · obtain ⟨hd, hlk⟩ := hrec x hx1 hxe
          exact ⟨hd, lookup_append_left' _ _ _ _ hlk⟩
        · rw [List.mem_singleton] at hx2
          subst hx2
          rw [henv] at hxe
          exact absurd hxe (by simp)

/-! ### Properties of the expansion loop -/

theorem expandLoop_invariant (mrPerm : Int)
    (env : String → Except Int (List MoiraListMember)) (root : String) :
    ∀ fuel members known denied log r,
    MoiraList.expandLoop mrPerm env fuel members known denied log = .ok r →
    known.map Prod.fst = root :: log →
    (root :: log).Nodup →
    (∀ n ∈ log, env n = .error mrPerm → n ∈ denied ∧ List.lookup n known = some none) →
    (r.known.map Prod.fst = root :: r.log ∧ (root :: r.log).Nodup ∧
      ∀ n ∈ r.log, env n = .error mrPerm → n ∈ r.denied ∧ List.lookup n r.known = some none) := by
  intro fuel
  induction fuel with
  | zero =>
    intro members known denied log r h
    rw [MoiraList.expandLoop] at h
    exact absurd h (by simp)
  | succ fuel ih =>
    intro members known denied log r h hkeys hnd hrec
    rw [MoiraList.expandLoop] at h
    by_cases hte : MoiraList.toExpand members known = []
    · rw [if_pos hte] at h
      injection h with h
      subst h
      exact ⟨hkeys, hnd, hrec⟩
    · rw [if_neg hte] at h
      cases hb : MoiraList.expandBatch mrPerm env (MoiraList.toExpand members known)
          members known denied log with
      | error c =>
        rw [hb] at h
        exact absurd h (by simp)
      | ok q =>
        obtain ⟨m2, k2, d2, l2⟩ := q
        rw [hb] at h
        dsimp only at h
        have hinv := expandBatch_invariant mrPerm env root _ _ _ _ _ _ _ _ _ hb
          (toExpand_nodup members known) (toExpand_fresh members known) hkeys hnd hrec
        exact ih _ _ _ _ _ h hinv.1 hinv.2.1 hinv.2.2

theorem expandLoop_moira_error (mrPerm : Int)
    (env : String → Except Int (List MoiraListMember)) :
    ∀ fuel members known denied log c,
    MoiraList.expandLoop mrPerm env fuel members known denied log = .error (.moiraError c) →
    c ≠ mrPerm ∧ ∃ n, env n = .error c := by
  intro fuel
  induction fuel with
  | zero =>
    intro members known denied log c h
    rw [MoiraList.expandLoop] at h
    exact absurd h (by simp)
  | succ fuel ih =>
    intro members known denied log c h
    rw [MoiraList.expandLoop] at h
    by_cases hte : MoiraList.toExpand members known = []
    · rw [if_pos hte] at h
      exact absurd h (by simp)
    · rw [if_neg hte] at h
      cases hb : MoiraList.expandBatch mrPerm env (MoiraList.toExpand members known)
          members known denied log with
      | error e =>
        rw [hb] at h
        dsimp only at h
        injection h with h
        injection h with h
        subst h
        obtain ⟨hne, n, _, he⟩ := expandBatch_error mrPerm env _ _ _ _ _ _ hb
        exact ⟨hne, n, he⟩
      | ok q =>
        obtain ⟨m2, k2, d2, l2⟩ := q
        rw [hb] at h
        dsimp only at h
        exact ih _ _ _ _ _ h

theorem expandLoop_no_depth_error (mrPerm : Int)
    (env : String → Except Int (List MoiraListMember)) (U : List String)
    (hU : ∀ n ms, env n = .ok ms → ∀ m ∈ ms, m.mtype = "LIST" → m.name ∈ U) :
    ∀ fuel members known denied log,
    (∀ m ∈ members, m.mtype = "LIST" → m.name ∈ U) →
    (U.toFinset \ (known.map Prod.fst).toFinset).card < fuel →
    MoiraList.expandLoop mrPerm env fuel members known denied log ≠ .error .depthLimit := by
  intro fuel
  induction fuel with
  | zero =>
    intro members known denied log _ hcard
    exact absurd hcard (by omega)
  | succ fuel ih =>
    intro members known denied log hmem hcard
    rw [MoiraList.expandLoop]
    by_cases hte : MoiraList.toExpand members known = []
    · rw [if_pos hte]
      simp
    · rw [if_neg hte]
      cases hb : MoiraList.expandBatch mrPerm env (MoiraList.toExpand members known)
          members known denied log with
      | error c =>
        simp
      | ok q =>
        obtain ⟨m2, k2, d2, l2⟩ := q
        dsimp only
        have hkeys := (expandBatch_keys mrPerm env _ _ _ _ _ _ _ _ _ hb).1
        have hmem2 : ∀ m ∈ m2, m.mtype = "LIST" → m.name ∈ U := by
          intro m hm hl
          rcases expandBatch_members_from_env mrPerm env _ _ _ _ _ _ _ _ _ hb m hm with
            h1 | ⟨n, ms, he, hms⟩
          · exact hmem m h1 hl
          · exact hU n ms he m hms hl
        refine ih m2 k2 d2 l2 hmem2 ?_
        obtain ⟨n0, hn0⟩ := List.exists_mem_of_ne_nil _ hte
        have hn0U : n0 ∈ U := by
          obtain ⟨m, hm, hml, hname⟩ := toExpand_from_members members known n0 hn0
          exact hname ▸ hmem m hm hml
        have hn0K : n0 ∉ known.map Prod.fst := toExpand_fresh members known n0 hn0
        have hsub : U.toFinset \ (k2.map Prod.fst).toFinset ⊆
            U.toFinset \ (known.map Prod.fst).toFinset := by
          apply Finset.sdiff_subset_sdiff (le_refl _)
          rw [hkeys]
          intro x hx
          rw [List.mem_toFinset] at hx ⊢
          exact List.mem_append_left _ hx
        have hmemdiff : n0 ∈ U.toFinset \ (known.map Prod.fst).toFinset := by
          rw [Finset.mem_sdiff, List.mem_toFinset, List.mem_toFinset]
          exact ⟨hn0U, hn0K⟩
        have hnotdiff : n0 ∉ U.toFinset \ (k2.map Prod.fst).toFinset := by
          rw [Finset.mem_sdiff, List.mem_toFinset, List.mem_toFinset, hkeys]
          intro ⟨_, hc⟩
          exact hc (List.mem_append_right _ hn0)
        have hlt : (U.toFinset \ (k2.map Prod.fst).toFinset).card <
            (U.toFinset \ (known.map Prod.fst).toFinset).card := by
          apply Finset.card_lt_card
          rw [Finset.ssubset_iff_of_subset hsub]
          exact ⟨n0, hmemdiff, hnotdiff⟩
        omega

/-- C6: during client-side expansion, once the root query itself succeeds,
a permission-denied (`MR_PERM`) error from a nested group's query is never
raised to the caller (any propagated `MoiraError` carries a code distinct
from `MR_PERM` and came verbatim from some query), and on success every
queried group name appears at most once in the query log (never
re-queried), the known index holds exactly the root plus the queried
names, and every queried name whose query was permission-denied is in
`denied` and is recorded in `known` as unknown (`None`). -/
theorem getAllMembers_perm_denied (mrPerm : Int)
    (env : String → Except Int (List MoiraListMember)) (incl : Bool) (root : String)
    (ms0 : List MoiraListMember) (hroot : env root = .ok ms0) :
    (∀ c, MoiraList.getAllMembers mrPerm env incl root = .error (.moiraError c) →
      c ≠ mrPerm ∧ ∃ n, env n = .error c) ∧
    (∀ r, MoiraList.getAllMembers mrPerm env incl root = .ok r →
      r.log.Nodup ∧ r.known.map Prod.fst = root :: r.log ∧
      ∀ n ∈ r.log, env n = .error mrPerm → n ∈ r.denied ∧ List.lookup n r.known = some none) := by
  unfold MoiraList.getAllMembers
  rw [hroot]
  dsimp only
  cases hloop : MoiraList.expandLoop mrPerm env MOIRA_MAX_LIST_DEPTH ms0
      [(root, some ms0)] [] [] with
  | error e =>
    dsimp only
    constructor
    · intro c h
      injection h with h
      subst h
      exact expandLoop_moira_error mrPerm env _ _ _ _ _ _ hloop
    · intro r h
      exact absurd h (by simp)
  | ok rr =>
    dsimp only
    have hinv := expandLoop_invariant mrPerm env root _ _ _ _ _ _ hloop
      (by simp) (by simp) (by simp)
    constructor
    · intro c h
      exact absurd h (by simp)
    · intro r h
      injection h with h
      subst h
      exact ⟨(List.nodup_cons.mp hinv.2.1).2, hinv.1, hinv.2.2⟩

/-- The membership environment of the specification's permission-handling
scenario: A contains the lists B and C, querying B is permission-denied
(code 151 plays `MR_PERM`), C contains the plain user D. -/
def envPermDemo : String → Except Int (List MoiraListMember) := fun n =>
  if n = "A" then .ok [⟨"LIST", "B"⟩, ⟨"LIST", "C"⟩]
  else if n = "B" then .error 151
  else if n = "C" then .ok [⟨"USER", "D"⟩]
  else .error 0

/-- Witness for `getAllMembers_perm_denied` on `envPermDemo`: the denied
nested group B lands in `denied` and is recorded as unknown, expansion
continues to C, and the call completes successfully. -/
theorem getAllMembers_perm_denied_witness :
    MoiraList.getAllMembers 151 envPermDemo true "A" =
      .ok ⟨[⟨"LIST", "B"⟩, ⟨"LIST", "C"⟩, ⟨"USER", "D"⟩], ["B"],
        [("A", some [⟨"LIST", "B"⟩, ⟨"LIST", "C"⟩]), ("B", none),
          ("C", some [⟨"USER", "D"⟩])], ["B", "C"]⟩ ∧
    ("B" ∈ (["B"] : List String) ∧
      List.lookup "B" [("A", some [(⟨"LIST", "B"⟩ : MoiraListMember), ⟨"LIST", "C"⟩]),
        ("B", none), ("C", some [⟨"USER", "D"⟩])] = some none) := by
  constructor
  · decide
  · exact (getAllMembers_perm_denied 151 envPermDemo true "A"
      [⟨"LIST", "B"⟩, ⟨"LIST", "C"⟩] rfl).2
      ⟨[⟨"LIST", "B"⟩, ⟨"LIST", "C"⟩, ⟨"USER", "D"⟩], ["B"],
        [("A", some [⟨"LIST", "B"⟩, ⟨"LIST", "C"⟩]), ("B", none),
          ("C", some [⟨"USER", "D"⟩])], ["B", "C"]⟩ (by decide)
      |>.2.2 "B" (by decide) (by decide)

/-- C7: client-side expansion never hits the depth-limit `UserError` on a
membership graph whose universe of nested list names has fewer than
`MOIRA_MAX_LIST_DEPTH` elements — every iteration only expands names not
yet in `known` (third conjunct), adds exactly the names it visits to
`known` (fourth conjunct), and therefore runs out of new names first; the
ceiling is the constant 3072, and once the iteration budget is exhausted
the loop fails with the depth-limit `UserError` instead of iterating on
(last conjunct). -/
theorem getAllMembers_terminates (mrPerm : Int)
    (env : String → Except Int (List MoiraListMember)) (incl : Bool) (root : String)
    (U : List String)
    (hU : ∀ n ms, env n = .ok ms → ∀ m ∈ ms, m.mtype = "LIST" → m.name ∈ U)
    (hcard : U.toFinset.card < MOIRA_MAX_LIST_DEPTH) :
    MoiraList.getAllMembers mrPerm env incl root ≠ .error .depthLimit ∧
    MOIRA_MAX_LIST_DEPTH = 3072 ∧
    (∀ members known, ∀ n ∈ MoiraList.toExpand members known, n ∉ known.map Prod.fst) ∧
    (∀ names members known denied log m2 k2 d2 l2,
      MoiraList.expandBatch mrPerm env names members known denied log = .ok (m2, k2, d2, l2) →
      k2.map Prod.fst = known.map Prod.fst ++ names) ∧
    (∀ members known denied log,
      MoiraList.expandLoop mrPerm env 0 members known denied log = .error .depthLimit) := by
  refine ⟨?_, rfl, toExpand_fresh,
    fun names members known denied log m2 k2 d2 l2 h =>
      (expandBatch_keys mrPerm env names members known denied log m2 k2 d2 l2 h).1,
    fun members known denied log => rfl⟩
  unfold MoiraList.getAllMembers
  cases hroot : env root with
  | error c => simp
  | ok ms =>
    dsimp only
    cases hloop : MoiraList.expandLoop mrPerm env MOIRA_MAX_LIST_DEPTH ms
        [(root, some ms)] [] [] with
    | error e =>
      dsimp only
      have hne := expandLoop_no_depth_error mrPerm env U hU MOIRA_MAX_LIST_DEPTH ms
        [(root, some ms)] [] [] (fun m hm hl => hU root ms hroot m hm hl) ?_
      · intro hcontra
        injection hcontra with hcontra
        subst hcontra
        exact hne hloop
      · have hsub : U.toFinset \ ([(root, some ms)].map Prod.fst).toFinset ⊆ U.toFinset :=
          Finset.sdiff_subset
        have := Finset.card_le_card hsub
        omega
    | ok rr =>
      dsimp only
      simp

/-- The cyclic membership environment of the specification's cycle-safety
scenario: A contains B and B contains A. -/
def envCycleDemo : String → Except Int (List MoiraListMember) := fun n =>
  if n = "A" then .ok [⟨"LIST", "B"⟩]
  else if n = "B" then .ok [⟨"LIST", "A"⟩]
  else .error 0

/-- Witness for `getAllMembers_terminates`: on the two-element cycle
A ↔ B the expansion does not hit the depth limit (and in fact returns). -/
theorem getAllMembers_terminates_witness :
    MoiraList.getAllMembers 151 envCycleDemo true "A" ≠ .error .depthLimit ∧
    MoiraList.getAllMembers 151 envCycleDemo true "A" =
      .ok ⟨[⟨"LIST", "B"⟩, ⟨"LIST", "A"⟩], [],
        [("A", some [⟨"LIST", "B"⟩]), ("B", some [⟨"LIST", "A"⟩])], ["B"]⟩ := by
  constructor
  · refine (getAllMembers_terminates 151 envCycleDemo true "A" ["A", "B"] ?_ ?_).1
    · intro n ms h m hm hl
      unfold envCycleDemo at h
      split_ifs at h with h1 h2
      · injection h with h
        subst h
        simp only [List.mem_singleton] at hm
        subst hm
        simp
      · injection h with h
        subst h
        simp only [List.mem_singleton] at hm
        subst hm
        simp
    · decide
  · decide

/-! ## Membership tracing (`src/lists.py`, class `MoiraListTracer`)

The tracer is built from the `lists` index produced by a client-side
`getAllMembers(include_lists=True)` run (the `known` mapping from list
name to explicit member set, `None` for denied lists).  Dictionaries are
modelled as association lists in insertion order.  `recursiveTrace` is
embedded with a recursion budget `fuel`; the budget is an artifact of the
embedding (`.error .fuelOut`), and every theorem below either holds for
all budgets or supplies a sufficient one. -/

/-- `result[member].append(listname)` preceded by
`if member not in result: result[member] = []`
(`src/lists.py` lines 238-241). -/
def MoiraListTracer.invInsert (inv : List (MoiraListMember × List String))
    (m : MoiraListMember) (ln : String) : List (MoiraListMember × List String) :=
  match List.lookup m inv with
  | some _ => inv.map (fun p => if p.1 = m then (p.1, p.2 ++ [ln]) else p)
  | none => inv ++ [(m, [ln])]

/-- The `for member in members` loop of `createInverseMap`. -/
def MoiraListTracer.invAddAll (inv : List (MoiraListMember × List String)) :
    List MoiraListMember → String → List (MoiraListMember × List String)
  | [], _ => inv
  | m :: rest, ln => MoiraListTracer.invAddAll (MoiraListTracer.invInsert inv m ln) rest ln

/-- `MoiraListTracer.createInverseMap` (`src/lists.py` lines 230-244):
walk the lists index in order, skipping entries whose member set is
`None` or empty (`if not members: continue`), and record for every member
the list names that explicitly contain it. -/
def MoiraListTracer.createInverseMap :
    List (String × Option (List MoiraListMember)) → List (MoiraListMember × List String) →
      List (MoiraListMember × List String)
  | [], inv => inv
  | (_, none) :: rest, inv => MoiraListTracer.createInverseMap rest inv
  | (ln, some ms) :: rest, inv =>
    if ms = [] then MoiraListTracer.createInverseMap rest inv
    else MoiraListTracer.createInverseMap rest (MoiraListTracer.invAddAll inv ms ln)

/-- `self.inverseLists` (`src/lists.py` line 244): the inverse map
restricted to `MoiraList` members, keyed by name. -/
def MoiraListTracer.inverseListsOf (inv : List (MoiraListMember × List String)) :
    List (String × List String) :=
  inv.filterMap (fun p => if p.1.mtype = "LIST" then some (p.1.name, p.2) else none)

/-- Failures of `trace`: the max-pathways `MoiraUserError`, the `KeyError`
Python would raise on `self.inverseLists[curlist]` for a list that is on
no other list, and the embedding's exhausted recursion budget. -/
inductive TraceErr where
  | tooManyPathways
  | missingList
  | fuelOut
  deriving DecidableEq, Repr

/-- `MoiraListTracer.recursiveTrace` (`src/lists.py` lines 259-272):
extend the current way by the current list; if the root list is reached,
emit the reversed way (guarding the pathway count); otherwise recurse
into every list containing the current one, skipping lists already on
the way. -/
def MoiraListTracer.recursiveTrace (invL : List (String × List String)) (rootName : String)
    (maxPathways : Nat) :
    Nat → String → List String → List (List String) → Except TraceErr (List (List String))
  | 0, _, _, _ => .error .fuelOut
  | fuel + 1, curlist, curway, output =>
    let newway := curway ++ [curlist]
    if curlist = rootName then
      if output.length = maxPathways then .error .tooManyPathways
      else .ok (output ++ [newway.reverse])
    else
      match List.lookup curlist invL with
      | none => .error .missingList
      | some cs =>
        cs.foldlM (fun out ln =>
          if ln ∈ newway then .ok out
          else MoiraListTracer.recursiveTrace invL rootName maxPathways fuel ln newway out)
          output

/-- `MoiraListTracer.trace` (`src/lists.py` lines 246-257): empty result
when the member is on no list; otherwise one depth-first walk per list
explicitly containing the member, accumulating pathways in order. -/
def MoiraListTracer.trace (lists : List (String × Option (List MoiraListMember)))
    (rootName : String) (maxPathways : Nat) (fuel : Nat) (member : MoiraListMember) :
    Except TraceErr (List (List String)) :=
  let inv := MoiraListTracer.createInverseMap lists []
  match List.lookup member inv with
  | none => .ok []
  | some cs =>
    cs.foldlM (fun out ml =>
      MoiraListTracer.recursiveTrace (MoiraListTracer.inverseListsOf inv) rootName
        maxPathways fuel ml [] out) []

/-! ### The inverse map contains only members that occur somewhere -/

theorem lookup_map_value_update_none (m m2 : MoiraListMember) (ln : String) :
    ∀ inv : List (MoiraListMember × List String),
    List.lookup m inv = none →
    List.lookup m (inv.map (fun p => if p.1 = m2 then (p.1, p.2 ++ [ln]) else p)) = none := by
  intro inv
  induction inv with
  | nil => intro _; rfl
  | cons p t ih =>
    obtain ⟨k, w⟩ := p
    intro h
    rw [List.lookup] at h
    cases hk : m == k with
    | true =>
      rw [hk] at h
      exact absurd h (by simp)
    | false =>
      rw [hk] at h
      rw [List.map_cons]
      dsimp only
      split
      · rw [List.lookup]
        simp only [hk]
        exact ih h
      · rw [List.lookup]
        simp only [hk]
        exact ih h

theorem invInsert_lookup_none (inv : List (MoiraListMember × List String))
    (m m2 : MoiraListMember) (ln : String) (hne : m ≠ m2)
    (h : List.lookup m inv = none) :
    List.lookup m (MoiraListTracer.invInsert inv m2 ln) = none := by
  unfold MoiraListTracer.invInsert
  cases hlk : List.lookup m2 inv with
  | none =>
    rw [lookup_append_right' _ _ _ h]
    have hb : (m == m2) = false := by
      rw [beq_eq_false_iff_ne]; exact hne
    simp [List.lookup, hb]
  | some v =>
    exact lookup_map_value_update_none m m2 ln inv h

theorem invAddAll_lookup_none (m : MoiraListMember) (ln : String) :
    ∀ (ms : List MoiraListMember) (inv : List (MoiraListMember × List String)),
    List.lookup m inv = none → m ∉ ms →
    List.lookup m (MoiraListTracer.invAddAll inv ms ln) = none := by
  intro ms
  induction ms with
  | nil => intro inv h _; exact h
  | cons m2 rest ih =>
    intro inv h hnm
    rw [MoiraListTracer.invAddAll]
    have hne : m ≠ m2 := fun he => hnm (he ▸ List.mem_cons_self m2 rest)
    exact ih _ (invInsert_lookup_none inv m m2 ln hne h)
      (fun hc => hnm (List.mem_cons_of_mem m2 hc))

theorem createInverseMap_lookup_none (m : MoiraListMember) :
    ∀ (lists : List (String × Option (List MoiraListMember)))
      (inv : List (MoiraListMember × List String)),
    List.lookup m inv = none →
    (∀ e ∈ lists, m ∉ e.2.getD []) →
    List.lookup m (MoiraListTracer.createInverseMap lists inv) = none := by
  intro lists
  induction lists with
  | nil => intro inv h _; exact h
  | cons e rest ih =>
    intro inv h hall
    obtain ⟨ln, oms⟩ := e
    cases oms with
    | none =>
      rw [MoiraListTracer.createInverseMap]
      exact ih inv h (fun e2 he2 => hall e2 (List.mem_cons_of_mem _ he2))
    | some ms =>
      rw [MoiraListTracer.createInverseMap]
      by_cases hms : ms = []
      · rw [if_pos hms]
        exact ih inv h (fun e2 he2 => hall e2 (List.mem_cons_of_mem _ he2))
      · rw [if_neg hms]
        have hm : m ∉ ms := by
          have := hall (ln, some ms) (List.mem_cons_self _ _)
          simpa using this
        exact ih _ (invAddAll_lookup_none m ln ms inv h hm)
          (fun e2 he2 => hall e2 (List.mem_cons_of_mem _ he2))

/-! ### Soundness of the depth-first pathway walk -/

/-- The containment step relation read off the `inverseLists` index:
`b` is one of the lists that explicitly contain `a`. -/
def MoiraListTracer.stepRel (invL : List (String × List String)) (a b : String) : Prop :=
  b ∈ (List.lookup a invL).getD []

theorem recursiveTrace_sound (invL : List (String × List String)) (rootName : String)
    (maxP : Nat) :
    ∀ fuel curlist curway output out2,
    MoiraListTracer.recursiveTrace invL rootName maxP fuel curlist curway output = .ok out2 →
    (curway ++ [curlist]).Nodup →
    List.Chain' (MoiraListTracer.stepRel invL) (curway ++ [curlist]) →
    ∃ ext, out2 = output ++ ext ∧
      ∀ p ∈ ext, ∃ w : List String,
        p = w.reverse ∧ (∃ t, w = (curway ++ [curlist]) ++ t) ∧
        w.getLast? = some rootName ∧ w.Nodup ∧
        List.Chain' (MoiraListTracer.stepRel invL) w := by
  intro fuel
  induction fuel with
  | zero =>
    intro curlist curway output out2 h
    rw [MoiraListTracer.recursiveTrace] at h
    exact absurd h (by simp)
  | succ fuel ih =>
    intro curlist curway output out2 h hnd hch
    rw [MoiraListTracer.recursiveTrace] at h
    by_cases hroot : curlist = rootName
    · rw [if_pos hroot] at h
      by_cases hmax : output.length = maxP
      · rw [if_pos hmax] at h
        exact absurd h (by simp)
      · rw [if_neg hmax] at h
        injection h with h
        refine ⟨[(curway ++ [curlist]).reverse], h.symm, ?_⟩
        intro p hp
        rw [List.mem_singleton] at hp
        subst hp
        refine ⟨curway ++ [curlist], rfl, ⟨[], by simp⟩, ?_, hnd, hch⟩
        rw [List.getLast?_concat, hroot]
    · rw [if_neg hroot] at h
      cases hlk : List.lookup curlist invL with
      | none =>
        rw [hlk] at h
        exact absurd h (by simp)
      | some cs =>
        rw [hlk] at h
        dsimp only at h
        have hcs : ∀ ln ∈ cs, MoiraListTracer.stepRel invL curlist ln := by
          intro ln hln
          unfold MoiraListTracer.stepRel
          rw [hlk]
          exact hln
        clear hlk
        revert h
        revert hcs
        revert output
        induction cs with
        | nil =>
          intro output hcs h
          rw [List.foldlM_nil] at h
          injection h with h
          exact ⟨[], h.symm ▸ by simp, by intro p hp; exact absurd hp (by simp)⟩
        | cons ln rest ihcs =>
          intro output hcs h
          rw [List.foldlM_cons] at h
          by_cases hmem : ln ∈ curway ++ [curlist]
          · rw [if_pos hmem] at h
            have h2 : rest.foldlM (fun out ln2 =>
                if ln2 ∈ curway ++ [curlist] then Except.ok out
                else MoiraListTracer.recursiveTrace invL rootName maxP fuel ln2
                  (curway ++ [curlist]) out) output = .ok out2 := h
            exact ihcs output (fun x hx => hcs x (List.mem_cons_of_mem ln hx)) h2
          · rw [if_neg hmem] at h
            cases hrec : MoiraListTracer.recursiveTrace invL rootName maxP fuel ln
                (curway ++ [curlist]) output with
            | error e =>
              rw [hrec] at h
              exact Except.noConfusion h
            | ok out1 =>
              rw [hrec] at h
              have h2 : rest.foldlM (fun out ln2 =>
                  if ln2 ∈ curway ++ [curlist] then Except.ok out
                  else MoiraListTracer.recursiveTrace invL rootName maxP fuel ln2
                    (curway ++ [curlist]) out) out1 = .ok out2 := h
              have hnd2 : ((curway ++ [curlist]) ++ [ln]).Nodup :=
                nodup_append_singleton _ _ hnd hmem
              have hch2 : List.Chain' (MoiraListTracer.stepRel invL)
                  ((curway ++ [curlist]) ++ [ln]) := by
                refine List.Chain'.append hch (List.chain'_singleton ln) ?_
                intro x hx y hy
                rw [List.getLast?_concat] at hx
                rw [List.head?_cons] at hy
                injection hx with hx
                injection hy with hy
                subst hx; subst hy
                exact hcs ln (List.mem_cons_self ln rest)
              obtain ⟨ext1, hout1, hprops1⟩ := ih ln (curway ++ [curlist]) output out1
                hrec hnd2 hch2
              obtain ⟨ext2, hout2, hprops2⟩ := ihcs out1
                (fun x hx => hcs x (List.mem_cons_of_mem ln hx)) h2
              refine ⟨ext1 ++ ext2, by rw [hout2, hout1, List.append_assoc], ?_⟩
              intro p hp
              rcases List.mem_append.mp hp with hp1 | hp2
              · obtain ⟨w, hw1, ⟨t, hw2⟩, hw3, hw4, hw5⟩ := hprops1 p hp1
                exact ⟨w, hw1, ⟨ln :: t, by rw [hw2]; simp⟩, hw3, hw4, hw5⟩
              · exact hprops2 p hp2

theorem traceFold_sound (invL : List (String × List String)) (rootName : String)
    (maxP fuel : Nat) :
    ∀ (cs : List String) (output out2 : List (List String)),
    cs.foldlM (fun out ml =>
      MoiraListTracer.recursiveTrace invL rootName maxP fuel ml [] out) output = .ok out2 →
    ∃ ext, out2 = output ++ ext ∧
      ∀ p ∈ ext, ∃ ml ∈ cs, ∃ w : List String,
        p = w.reverse ∧ (∃ t, w = ml :: t) ∧
        w.getLast? = some rootName ∧ w.Nodup ∧
        List.Chain' (MoiraListTracer.stepRel invL) w := by
  intro cs
  induction cs with
  | nil =>
    intro output out2 h
    rw [List.foldlM_nil] at h
    injection h with h
    exact ⟨[], h.symm ▸ by simp, by intro p hp; exact absurd hp (by simp)⟩
  | cons ml rest ih =>
    intro output out2 h
    rw [List.foldlM_cons] at h
    cases hrec : MoiraListTracer.recursiveTrace invL rootName maxP fuel ml [] output with
    | error e =>
      rw [hrec] at h
      exact Except.noConfusion h
    | ok out1 =>
      rw [hrec] at h
      have h2 : rest.foldlM (fun out ml2 =>
          MoiraListTracer.recursiveTrace invL rootName maxP fuel ml2 [] out) out1 =
            .ok out2 := h
      obtain ⟨ext1, hout1, hprops1⟩ := recursiveTrace_sound invL rootName maxP fuel ml []
        output out1 hrec (by simp) (by simp)
      obtain ⟨ext2, hout2, hprops2⟩ := ih out1 out2 h2
      refine ⟨ext1 ++ ext2, by rw [hout2, hout1, List.append_assoc], ?_⟩
      intro p hp
      rcases List.mem_append.mp hp with hp1 | hp2
      · obtain ⟨w, hw1, ⟨t, hw2⟩, hw3, hw4, hw5⟩ := hprops1 p hp1
        exact ⟨ml, List.mem_cons_self ml rest, w, hw1, ⟨t, by rw [hw2]; simp⟩, hw3, hw4, hw5⟩
      · obtain ⟨ml2, hml2, rest2⟩ := hprops2 p hp2
        exact ⟨ml2, List.mem_cons_of_mem ml hml2, rest2⟩

/-- The membership graph of the specification's tracing scenario, as the
`known` index a client-side expansion of A produces: A contains the lists
B and C, and both B and C contain the plain user D. -/
def demoLists : List (String × Option (List MoiraListMember)) :=
  [("A", some [⟨"LIST", "B"⟩, ⟨"LIST", "C"⟩]),
   ("B", some [⟨"USER", "D"⟩]),
   ("C", some [⟨"USER", "D"⟩])]

/-- C8: over any expanded membership graph, `trace` returns the empty
sequence when the member is explicitly on no group (first conjunct), and
every returned pathway is a duplicate-free inclusion chain written
root-to-target: it starts at the traced root group, ends at a group that
explicitly contains the member, and every consecutive pair steps through
the explicit-containment relation (second conjunct, stated through the
reversed discovery order `w`).  Over the graph where A contains B and C
and both B and C contain D, `trace(D)` returns exactly the two pathways
`(A, B)` and `(A, C)` (third conjunct). -/
theorem trace_pathways (lists : List (String × Option (List MoiraListMember)))
    (rootName : String) (maxP fuel : Nat) (member : MoiraListMember) :
    ((∀ e ∈ lists, member ∉ e.2.getD []) →
      MoiraListTracer.trace lists rootName maxP fuel member = .ok []) ∧
    (∀ ps, MoiraListTracer.trace lists rootName maxP fuel member = .ok ps →
      ∀ p ∈ ps, ∃ w : List String,
        p = w.reverse ∧ w.getLast? = some rootName ∧ w.Nodup ∧
        List.Chain' (MoiraListTracer.stepRel
          (MoiraListTracer.inverseListsOf (MoiraListTracer.createInverseMap lists []))) w ∧
        ∃ l cs, w.head? = some l ∧
          List.lookup member (MoiraListTracer.createInverseMap lists []) = some cs ∧
          l ∈ cs) ∧
    MoiraListTracer.trace demoLists "A" 65536 10 ⟨"USER", "D"⟩ = .ok [["A", "B"], ["A", "C"]] := by
  refine ⟨?_, ?_, by decide⟩
  · intro hno
    unfold MoiraListTracer.trace
    dsimp only
    rw [createInverseMap_lookup_none member lists [] rfl hno]
  · intro ps h
    unfold MoiraListTracer.trace at h
    dsimp only at h
    cases hlk : List.lookup member (MoiraListTracer.createInverseMap lists []) with
    | none =>
      rw [hlk] at h
      injection h with h
      intro p hp
      rw [← h] at hp
      exact absurd hp (by simp)
    | some cs =>
      rw [hlk] at h
      dsimp only at h
      obtain ⟨ext, hout, hprops⟩ := traceFold_sound _ rootName maxP fuel cs [] ps h
      intro p hp
      rw [hout, List.nil_append] at hp
      obtain ⟨ml, hml, w, hw1, ⟨t, hw2⟩, hw3, hw4, hw5⟩ := hprops p hp
      refine ⟨w, hw1, hw3, hw4, hw5, ml, cs, ?_, rfl, hml⟩
      rw [hw2]
      rfl

/-- Witness for `trace_pathways`: the user Z is on no list of the demo
graph, so tracing returns the empty pathway sequence. -/
theorem trace_pathways_witness :
    MoiraListTracer.trace demoLists "A" 65536 10 ⟨"USER", "Z"⟩ = .ok [] :=
  (trace_pathways demoLists "A" 65536 10 ⟨"USER", "Z"⟩).1 (by decide)
